import Mathlib

/-!
Verification of the cut-composition core of the lhotse fragment: the entity
model (Cut, MixTrack, MixedCut, CutSet), the segment splitter, the gap
extractor, the overlay engine and the serialization round-trip.

The repository fragment ships only the CLI callers and the test-suite for
these components; the component bodies themselves are reconstructed here
from the design document, constrained by the in-repo callers and tests.
-/

namespace Lhotse

/-- A labeled sub-interval of a cut's timeline (SupervisionSegment):
identifier, recording identifier, start and duration in seconds
(modelled as exact rationals). -/
structure Supervision where
  sid : String
  recording : String
  start : ℚ
  duration : ℚ
deriving DecidableEq, Repr

/-- Atomic cut: a time window within one recording's feature matrix.
The feature matrix is an opaque borrowed handle (`featureRef`); the cut
carries its window (`start`, `duration`), a channel, and its supervisions. -/
structure Cut where
  cid : String
  featureRef : String
  start : ℚ
  duration : ℚ
  channel : ℕ
  supervisions : List Supervision
deriving DecidableEq, Repr

mutual

/-- Polymorphic member of a CutSet: a simple Cut or a MixedCut. -/
inductive AnyCut where
  | simple (c : Cut)
  | mixed (m : MixedCut)

/-- Composite cut: identifier plus an ordered list of tracks. -/
inductive MixedCut where
  | mk (mid : String) (tracks : List MixTrack)

/-- A track of a MixedCut, as constructed by the in-repo tests:
a cut, an offset (seconds, default 0) and an optional SNR in decibels
(default none, meaning the track's energy is left unmodified). -/
inductive MixTrack where
  | mk (cut : AnyCut) (offset : ℚ := 0) (snr : Option ℚ := none)

end

def MixedCut.mid : MixedCut → String
  | .mk i _ => i

def MixedCut.tracks : MixedCut → List MixTrack
  | .mk _ ts => ts

def MixTrack.cut : MixTrack → AnyCut
  | .mk c _ _ => c

def MixTrack.offset : MixTrack → ℚ
  | .mk _ o _ => o

def MixTrack.snr : MixTrack → Option ℚ
  | .mk _ _ s => s

/-- Identifier of a CutSet member, simple or mixed. -/
def AnyCut.cid : AnyCut → String
  | .simple c => c.cid
  | .mixed m => m.mid

/-- CutSet: insertion-ordered collection of simple and mixed cuts,
keyed by their identifiers (which are unique in a well-formed set). -/
abbrev CutSet := List AnyCut

/-- Filter of a CutSet by a predicate on members: keeps exactly the
members satisfying the predicate, in their original order. -/
def CutSet.filter (p : AnyCut → Bool) (cs : CutSet) : CutSet :=
  List.filter p cs

/-! ## Segment Splitter

Modelled from the spec: `lhotse.manipulation.split` is not part of the
repository fragment (only its CLI caller is), so the partitioning is
reconstructed from §4.3 of the design: sizes `len / n` with the remainder
spread over the first `len % n` groups, a `ValueError` when `num_splits`
is non-positive or exceeds the member count, and an externally-seeded
shuffle applied first when `randomize` is set. -/

/-- Group sizes for a balanced partition of `len` members into `n` groups:
the i-th group gets `len / n` members, plus one when `i < len % n`. -/
def chunkSizes (len n : ℕ) : List ℕ :=
  (List.range n).map (fun i => len / n + if i < len % n then 1 else 0)

/-- Cut a list into consecutive chunks of the given sizes. -/
def takeChunks {α : Type} : List α → List ℕ → List (List α)
  | _, [] => []
  | xs, s :: ss => xs.take s :: takeChunks (xs.drop s) ss

/-- Partition a CutSet into `numSplits` near-equal groups. The external
random source is modelled by the `shuffle` argument, applied only when
`randomize` is set; a `ValueError` is signalled when `numSplits` is
non-positive or exceeds the number of members. -/
def split (cs : CutSet) (numSplits : ℤ) (randomize : Bool)
    (shuffle : List AnyCut → List AnyCut) : Except String (List CutSet) :=
  if numSplits ≤ 0 ∨ (cs.length : ℤ) < numSplits then
    .error "ValueError"
  else
    let order := if randomize then shuffle cs else cs
    .ok (takeChunks order (chunkSizes cs.length numSplits.toNat))

theorem sum_range_ite (q r n : ℕ) :
    ((List.range n).map (fun i => q + if i < r then 1 else 0)).sum
      = n * q + min r n := by
  induction n with
  | zero => simp
  | succ k ih =>
    rw [List.range_succ, List.map_append, List.sum_append, ih, Nat.succ_mul]
    by_cases hk : k < r
    · simp only [List.map_cons, List.map_nil, if_pos hk]
      simp only [List.sum_cons, List.sum_nil]
      omega
    · simp only [List.map_cons, List.map_nil, if_neg hk]
      simp only [List.sum_cons, List.sum_nil]
      omega

theorem chunkSizes_sum (len n : ℕ) (hn : 0 < n) :
    (chunkSizes len n).sum = len := by
  have hmod : len % n < n := Nat.mod_lt _ hn
  have hdm := Nat.div_add_mod len n
  rw [chunkSizes, sum_range_ite]
  omega

theorem takeChunks_flatten {α : Type} (ss : List ℕ) (xs : List α) :
    (takeChunks xs ss).flatten = xs.take ss.sum := by
  induction ss generalizing xs with
  | nil => simp [takeChunks]
  | cons s ss ih =>
    rw [takeChunks, List.flatten_cons, ih, List.sum_cons, List.take_add]

theorem takeChunks_map_length {α : Type} (ss : List ℕ) (xs : List α)
    (h : ss.sum ≤ xs.length) :
    (takeChunks xs ss).map List.length = ss := by
  induction ss generalizing xs with
  | nil => simp [takeChunks]
  | cons s ss ih =>
    rw [List.sum_cons] at h
    rw [takeChunks, List.map_cons, List.length_take,
      ih (xs.drop s) (by simp only [List.length_drop]; omega)]
    congr 1
    omega

/-- The member order used by `split`: the input order, or the externally
shuffled order when `randomize` is set. -/
theorem split_order_perm (cs : CutSet) (randomize : Bool)
    (shuffle : List AnyCut → List AnyCut)
    (hsh : randomize = true → (shuffle cs).Perm cs) :
    (if randomize then shuffle cs else cs).Perm cs := by
  cases randomize with
  | false => simp
  | true => simpa using hsh rfl

/-- C1: for every CutSet and valid `num_splits`, the splits returned by
`split` are pairwise disjoint by cut identifier and their members,
concatenated, are a permutation of the input — no member is dropped or
duplicated, for both `randomize = true` and `randomize = false` (the
shuffle of the external random source being a permutation). -/
theorem claim_C1_split_disjoint_cover
    (cs : CutSet) (n : ℤ) (randomize : Bool)
    (shuffle : List AnyCut → List AnyCut)
    (hsh : randomize = true → (shuffle cs).Perm cs)
    (hn : 0 < n) (hlen : n ≤ (cs.length : ℤ))
    (hnodup : (cs.map AnyCut.cid).Nodup) :
    ∀ parts, split cs n randomize shuffle = .ok parts →
      parts.Pairwise
        (fun s t => (s.map AnyCut.cid).Disjoint (t.map AnyCut.cid))
      ∧ parts.flatten.Perm cs := by
  intro parts hparts
  have hcond : ¬ (n ≤ 0 ∨ (cs.length : ℤ) < n) := by omega
  rw [split, if_neg hcond] at hparts
  have horder := split_order_perm cs randomize shuffle hsh
  have hlen2 : (if randomize then shuffle cs else cs).length = cs.length :=
    horder.length_eq
  have hsum : (chunkSizes cs.length n.toNat).sum = cs.length :=
    chunkSizes_sum _ _ (by omega)
  have hflat : parts.flatten = (if randomize then shuffle cs else cs) := by
    have := congrArg (fun r : Except String (List CutSet) =>
      match r with | .ok p => p | .error _ => []) hparts
    simp only at this
    rw [← this, takeChunks_flatten, hsum, ← hlen2, List.take_length]
  refine ⟨?_, hflat ▸ horder⟩
  have hnodup2 : (parts.flatten.map AnyCut.cid).Nodup := by
    rw [hflat]
    exact ((horder.map AnyCut.cid).symm).nodup hnodup
  rw [List.map_flatten, List.nodup_flatten] at hnodup2
  have := hnodup2.2
  rwa [List.pairwise_map] at this

/-- C7: every group returned by `split` has size `len / num_splits` or
`len / num_splits + 1`, with each of the first `len % num_splits` groups
getting the extra member (and the rest getting exactly the quotient). -/
theorem claim_C7_split_sizes
    (cs : CutSet) (n : ℤ) (randomize : Bool)
    (shuffle : List AnyCut → List AnyCut)
    (hsh : randomize = true → (shuffle cs).Perm cs)
    (hn : 0 < n) (hlen : n ≤ (cs.length : ℤ)) :
    ∀ parts, split cs n randomize shuffle = .ok parts →
      parts.map List.length
        = (List.range n.toNat).map
            (fun i => cs.length / n.toNat
              + if i < cs.length % n.toNat then 1 else 0) := by
  intro parts hparts
  have hcond : ¬ (n ≤ 0 ∨ (cs.length : ℤ) < n) := by omega
  rw [split, if_neg hcond] at hparts
  have horder := split_order_perm cs randomize shuffle hsh
  have hsum : (chunkSizes cs.length n.toNat).sum = cs.length :=
    chunkSizes_sum _ _ (by omega)
  have := congrArg (fun r : Except String (List CutSet) =>
    match r with | .ok p => p | .error _ => []) hparts
  simp only at this
  rw [← this, takeChunks_map_length _ _ (by rw [hsum, horder.length_eq])]
  rfl

/-- C8: `split` signals a `ValueError` exactly when `num_splits` is
non-positive or exceeds the number of members; otherwise it returns the
partition (being pure, it leaves the input untouched in either case). -/
theorem claim_C8_split_valueerror_iff
    (cs : CutSet) (n : ℤ) (randomize : Bool)
    (shuffle : List AnyCut → List AnyCut) :
    (∃ e, split cs n randomize shuffle = .error e)
      ↔ (n ≤ 0 ∨ (cs.length : ℤ) < n) := by
  by_cases h : n ≤ 0 ∨ (cs.length : ℤ) < n
  · simp only [h, iff_true]
    exact ⟨"ValueError", by rw [split, if_pos h]⟩
  · simp only [h, iff_false, not_exists]
    intro e
    rw [split, if_neg h]
    simp

/-! ## Concrete fixtures

The supervisions and cuts of `test_trim_to_unsupervised_segments`. -/

def sup1 : Supervision := ⟨"sup1", "rec1", 3/2, 17/2⟩

def sup2 : Supervision := ⟨"sup2", "rec1", 10, 5⟩

def sup3 : Supervision := ⟨"sup3", "rec1", 20, 8⟩

def sup4 : Supervision := ⟨"sup4", "rec1", 0, 30⟩

def cut1 : Cut := ⟨"cut1", "feats1", 0, 30, 0, [sup1, sup2, sup3]⟩

def cut2 : Cut := ⟨"cut2", "feats1", 0, 30, 0, [sup4]⟩

def demoSet : CutSet := [.simple cut1, .simple cut2]

theorem claim_C1_witness :
    ((false = true →
        (((fun l => l) : List AnyCut → List AnyCut) demoSet).Perm demoSet)
      ∧ (0 : ℤ) < 2 ∧ (2 : ℤ) ≤ (demoSet.length : ℤ)
      ∧ (demoSet.map AnyCut.cid).Nodup)
    ∧ (([[.simple cut1], [.simple cut2]] : List CutSet).Pairwise
        (fun s t => (s.map AnyCut.cid).Disjoint (t.map AnyCut.cid))
      ∧ ([[.simple cut1], [.simple cut2]] : List CutSet).flatten.Perm
          demoSet) :=
  ⟨⟨(fun h => nomatch h), by decide, by decide, by decide⟩,
    claim_C1_split_disjoint_cover demoSet 2 false (fun l => l)
      (fun h => nomatch h) (by decide) (by decide) (by decide)
      [[.simple cut1], [.simple cut2]] rfl⟩

theorem claim_C7_witness :
    ((false = true →
        (((fun l => l) : List AnyCut → List AnyCut) demoSet).Perm demoSet)
      ∧ (0 : ℤ) < 2 ∧ (2 : ℤ) ≤ (demoSet.length : ℤ))
    ∧ ([[.simple cut1], [.simple cut2]] : List CutSet).map List.length
        = (List.range (2 : ℤ).toNat).map
            (fun i => demoSet.length / (2 : ℤ).toNat
              + if i < demoSet.length % (2 : ℤ).toNat then 1 else 0) :=
  ⟨⟨(fun h => nomatch h), by decide, by decide⟩,
    claim_C7_split_sizes demoSet 2 false (fun l => l)
      (fun h => nomatch h) (by decide) (by decide)
      [[.simple cut1], [.simple cut2]] rfl⟩

/-! ## Gap Extractor (`trim_to_unsupervised_segments`)

Modelled from the spec: the implementation is not part of the repository
fragment (only its test is), so the algorithm is reconstructed from §4.4
of the design: clip every supervision interval to the cut's `[0, duration)`
window, sort by start, merge overlapping or adjacent intervals, and emit
the positive-length complement intervals as new supervision-free cuts.
The fresh identifiers of the emitted cuts (random in the source, where a
CutSet keys its members by id and the test obtains three distinct gap cuts
from one input cut) are modelled deterministically from the parent id and
the gap index. -/

/-- A supervision's interval clipped to the cut's `[0, d)` window. -/
def clipIv (d : ℚ) (s : Supervision) : ℚ × ℚ :=
  (max 0 s.start, min d (s.start + s.duration))

/-- Insert an interval into a list sorted by start point. -/
def insertIv (x : ℚ × ℚ) : List (ℚ × ℚ) → List (ℚ × ℚ)
  | [] => [x]
  | y :: ys => if x.1 ≤ y.1 then x :: y :: ys else y :: insertIv x ys

/-- Sort intervals by start point (insertion sort). -/
def sortIvs : List (ℚ × ℚ) → List (ℚ × ℚ)
  | [] => []
  | x :: xs => insertIv x (sortIvs xs)

/-- Merge overlapping or adjacent intervals of a list sorted by start. -/
def mergeIvs : List (ℚ × ℚ) → List (ℚ × ℚ)
  | [] => []
  | x :: rest =>
    match mergeIvs rest with
    | [] => [x]
    | y :: ys => if y.1 ≤ x.2 then (x.1, max x.2 y.2) :: ys else x :: y :: ys

/-- Positive-length complement of a merged covered-set within
`[cursor, d)`, left to right. -/
def gapsFrom (cursor d : ℚ) : List (ℚ × ℚ) → List (ℚ × ℚ)
  | [] => if cursor < d then [(cursor, d)] else []
  | (a, b) :: rest =>
    (if cursor < a then [(cursor, a)] else []) ++ gapsFrom (max cursor b) d rest

/-- The maximal unsupervised intervals of a cut, relative to the cut. -/
def unsupervisedIvs (c : Cut) : List (ℚ × ℚ) :=
  gapsFrom 0 c.duration
    (mergeIvs (sortIvs ((c.supervisions.map (clipIv c.duration)).filter
      (fun iv => decide (iv.1 < iv.2)))))

/-- The gap cut for interval `[a, b)` of parent `c`, at gap index `i`:
supervision-free, same feature reference and channel, shifted start. -/
def mkGapCut (c : Cut) (i : ℕ) (a b : ℚ) : Cut :=
  ⟨c.cid ++ "-unsup-" ++ toString i, c.featureRef, c.start + a, b - a,
    c.channel, []⟩

/-- Number the gap intervals left to right and build their cuts. -/
def labelGaps (c : Cut) : ℕ → List (ℚ × ℚ) → List Cut
  | _, [] => []
  | i, (a, b) :: rest => mkGapCut c i a b :: labelGaps c (i + 1) rest

/-- Gap extraction for one cut. -/
def trimCut (c : Cut) : List Cut :=
  labelGaps c 0 (unsupervisedIvs c)

/-- Gap extraction over a whole CutSet: the members' gap cuts are
concatenated into one flat CutSet (the design defines gap extraction on
atomic cuts; mixed members hold no supervisions of their own). -/
def trimToUnsupervisedSegments (cs : CutSet) : CutSet :=
  cs.flatMap (fun m => match m with
    | .simple c => (trimCut c).map AnyCut.simple
    | .mixed _ => [])

/-- C2: on the test's cut of duration 30 with supervisions
`[1.5,10), [10,15), [20,28)` gap extraction produces exactly the three
supervision-free cuts `[0,1.5)`, `[15,20)`, `[28,30)` in left-to-right
order; on the cut fully covered by `[0,30)` it produces none; and over
the CutSet holding both, the results are concatenated into one flat
CutSet of exactly those three cuts. -/
theorem claim_C2_trim_scenario :
    trimCut cut2 = []
    ∧ trimToUnsupervisedSegments demoSet
      = [.simple ⟨"cut1-unsup-0", "feats1", 0, 3/2, 0, []⟩,
         .simple ⟨"cut1-unsup-1", "feats1", 15, 5, 0, []⟩,
         .simple ⟨"cut1-unsup-2", "feats1", 28, 2, 0, []⟩] := by
  constructor
  · norm_num [trimCut, unsupervisedIvs, clipIv, sortIvs, insertIv, mergeIvs,
      gapsFrom, labelGaps, mkGapCut, cut2, sup4]
  · norm_num [trimToUnsupervisedSegments, trimCut, unsupervisedIvs, clipIv,
      sortIvs, insertIv, mergeIvs, gapsFrom, labelGaps, mkGapCut, demoSet,
      cut1, cut2, sup1, sup2, sup3, sup4]
    exact ⟨by decide, by decide, by decide⟩

/-- A fully-unsupervised cut, as produced by gap extraction. -/
def demoGap : Cut := ⟨"g", "f", 5, 7, 0, []⟩

/-- C9 (counterexample): gap extraction is not literally idempotent on a
fully-unsupervised cut — the single cut it returns carries a freshly
generated identifier (the members of a CutSet are keyed by id, so the
three gaps of one parent in the test must get distinct fresh ids), hence
is not identical to the input. -/
theorem claim_C9_counterexample :
    trimCut demoGap ≠ [demoGap] := by
  intro h
  have h2 := congrArg (List.map Cut.cid) h
  norm_num [trimCut, unsupervisedIvs, clipIv, sortIvs, mergeIvs, gapsFrom,
    labelGaps, mkGapCut, demoGap] at h2
  exact absurd h2 (by decide)

/-- C9 (amended): re-running gap extraction on a gap cut (a cut with empty
supervisions and positive duration) yields exactly one cut that agrees
with the input on the feature reference, start, duration, channel and
(empty) supervisions; only the generated identifier differs. -/
theorem claim_C9_trim_idempotent_mod_id (c : Cut)
    (hsup : c.supervisions = []) (hdur : 0 < c.duration) :
    (trimCut c).map
        (fun g => (g.featureRef, g.start, g.duration, g.channel,
          g.supervisions))
      = [(c.featureRef, c.start, c.duration, c.channel, [])] := by
  simp [trimCut, unsupervisedIvs, hsup, sortIvs, mergeIvs, gapsFrom,
    if_pos hdur, labelGaps, mkGapCut]

theorem claim_C9_witness :
    (demoGap.supervisions = [] ∧ 0 < demoGap.duration)
    ∧ (trimCut demoGap).map
        (fun g => (g.featureRef, g.start, g.duration, g.channel,
          g.supervisions))
      = [(demoGap.featureRef, demoGap.start, demoGap.duration,
          demoGap.channel, [])] :=
  ⟨⟨rfl, by simp [demoGap]⟩,
    claim_C9_trim_idempotent_mod_id demoGap rfl (by simp [demoGap])⟩

/-- C10: filtering a CutSet by a predicate keeps exactly the members the
predicate accepts, as the same objects in their original order (a
sublist of the input); the input itself is untouched (filter is pure). -/
theorem claim_C10_filter (cs : CutSet) (p : AnyCut → Bool) :
    (∀ c, c ∈ CutSet.filter p cs ↔ c ∈ cs ∧ p c = true)
    ∧ (CutSet.filter p cs).Sublist cs :=
  ⟨fun _ => List.mem_filter, List.filter_sublist cs⟩

/-! ## Overlay Engine

Modelled from the spec: `Cut.overlay` is not part of the repository
fragment (only its CLI caller and the MixedCut tests are), so it is
reconstructed from §4.2 of the design: the result is a single MixedCut
whose track list is the concatenation of both operands' tracks (a simple
operand contributing one track), the right operand's offsets re-based by
`offset_other_by`; the per-track SNR (as stored by the tests' MixTrack)
determines the linear gain applied to the track's energy, relative to
the reference energy of the left operand, with `snr = none` meaning no
renormalization. Signal energies are opaque scalar statistics of the
feature references, passed in explicitly; the decibel-to-linear
conversion lives in the real numbers, so the gain model is a
non-executable idealization of the source's floating-point math. -/

def AnyCut.isSimple : AnyCut → Bool
  | .simple _ => true
  | .mixed _ => false

/-- A MixedCut is flat when no track holds a nested MixedCut. -/
def flatMixed (m : MixedCut) : Bool :=
  m.tracks.all (fun t => t.cut.isSimple)

def AnyCut.flat : AnyCut → Bool
  | .simple _ => true
  | .mixed m => flatMixed m

/-- Number of tracks an operand contributes: one for a simple cut. -/
def trackCount : AnyCut → ℕ
  | .simple _ => 1
  | .mixed m => m.tracks.length

/-- Tracks contributed by the left operand of an overlay. -/
def tracksOfLeft : AnyCut → List MixTrack
  | .simple c => [MixTrack.mk (.simple c) 0 none]
  | .mixed m => m.tracks

/-- Tracks contributed by the right operand: a simple cut becomes one
track at the given offset and SNR; a MixedCut's tracks are kept with
their offsets re-based. -/
def tracksOfRight (off : ℚ) (snr : Option ℚ) : AnyCut → List MixTrack
  | .simple c => [MixTrack.mk (.simple c) off snr]
  | .mixed m => m.tracks.map (fun t => MixTrack.mk t.cut (t.offset + off) t.snr)

/-- Overlay two cuts into a single flat MixedCut. -/
def overlay (l r : AnyCut) (off : ℚ) (snr : Option ℚ) : MixedCut :=
  MixedCut.mk (l.cid ++ "-mix-" ++ r.cid)
    (tracksOfLeft l ++ tracksOfRight off snr r)

/-- The linear gain applied to a track's energy when mixing: derived so
that the reference (left) energy over the gain-scaled own energy equals
`10 ^ (snr / 10)`; an absent SNR leaves the energy unmodified. -/
noncomputable def appliedGain (eRef eOwn : ℝ) : Option ℚ → ℝ
  | none => 1
  | some s => eRef / (eOwn * (10 : ℝ) ^ ((s : ℝ) / 10))

/-- C3: in the MixedCut returned by `overlay (a, b, offset, snr)` the
right track carries the given SNR, and the ratio of `a`'s energy to the
gain-scaled energy of `b` equals `10 ^ (snr / 10)` — exactly, in the
real-number model — for every finite `snr` and nonzero energies; with
`snr = none` the gain stays 1 regardless of the energies. -/
theorem claim_C3_overlay_snr (a b : Cut) (off : ℚ) (s : ℚ) (eA eB : ℝ)
    (hA : eA ≠ 0) (hB : eB ≠ 0) :
    ((overlay (.simple a) (.simple b) off (some s)).tracks.map MixTrack.snr
        = [none, some s])
    ∧ eA / (appliedGain eA eB (some s) * eB) = (10 : ℝ) ^ ((s : ℝ) / 10)
    ∧ appliedGain eA eB none = 1 := by
  refine ⟨by simp [overlay, tracksOfLeft, tracksOfRight, MixedCut.tracks,
    MixTrack.snr], ?_, rfl⟩
  have hT : (0 : ℝ) < (10 : ℝ) ^ ((s : ℝ) / 10) :=
    Real.rpow_pos_of_pos (by norm_num) _
  rw [appliedGain]
  field_simp
  ring

/-- C3 witness at `a = cut1`, `b = cut2`, `offset = 0`, `snr = 0`,
unit energies. -/
theorem claim_C3_witness :
    ((1 : ℝ) ≠ 0)
    ∧ (((overlay (.simple cut1) (.simple cut2) 0 (some 0)).tracks.map
          MixTrack.snr = [none, some 0])
      ∧ (1 : ℝ) / (appliedGain 1 1 (some 0) * 1)
          = (10 : ℝ) ^ (((0 : ℚ) : ℝ) / 10)
      ∧ appliedGain 1 1 none = 1) :=
  ⟨one_ne_zero,
    claim_C3_overlay_snr cut1 cut2 0 0 1 1 one_ne_zero one_ne_zero⟩

/-- C4: overlaying two flat operands (at least one possibly mixed) yields
one single flat MixedCut — no nested MixedCut in its track list — whose
track count is the sum of the operands' track counts, a simple cut
counting as one track. -/
theorem claim_C4_overlay_flatten (l r : AnyCut) (off : ℚ) (snr : Option ℚ)
    (hl : l.flat = true) (hr : r.flat = true) :
    flatMixed (overlay l r off snr) = true
    ∧ (overlay l r off snr).tracks.length = trackCount l + trackCount r := by
  cases l <;> cases r <;>
    simp_all [overlay, flatMixed, AnyCut.flat, tracksOfLeft, tracksOfRight,
      trackCount, MixedCut.tracks, AnyCut.isSimple, MixTrack.cut,
      List.all_map, Function.comp]
  omega

/-- A flat MixedCut fixture: one track holding `cut1`. -/
def demoMixed : MixedCut := MixedCut.mk "m" [MixTrack.mk (.simple cut1) 0 none]

/-- C4 witness: a one-track MixedCut overlaid with a simple cut gives a
flat two-track MixedCut. -/
theorem claim_C4_witness :
    ((AnyCut.mixed demoMixed).flat = true ∧ (AnyCut.simple cut2).flat = true)
    ∧ (flatMixed (overlay (.mixed demoMixed) (.simple cut2) 0 none) = true
      ∧ (overlay (.mixed demoMixed) (.simple cut2) 0 none).tracks.length
          = trackCount (.mixed demoMixed) + trackCount (.simple cut2)) :=
  ⟨⟨rfl, rfl⟩,
    claim_C4_overlay_flatten (.mixed demoMixed) (.simple cut2) 0 none rfl rfl⟩

/-- C6 (counterexample): the third component of a MixTrack — here the
track `MixTrack(cut=cut2, offset=1.0, snr=10)` built by the in-repo test
fixture — is an SNR in decibels, not a carried linear gain multiplier:
the linear gain it induces is not a fixed value stored in the track but
varies with the operands' energies (1 at reference energy 10, 2 at
reference energy 20, for own energy 1). -/
theorem claim_C6_counterexample :
    (MixTrack.mk (.simple cut2) 1 (some 10)).snr = some 10
    ∧ appliedGain 10 1 (some 10) ≠ appliedGain 20 1 (some 10) := by
  refine ⟨rfl, ?_⟩
  have h10 : (((10 : ℚ) : ℝ)) / 10 = 1 := by norm_num
  simp only [appliedGain, h10, Real.rpow_one]
  norm_num

/-- C6 (amended): a MixTrack is a (cut, offset, snr) triple: alongside
its cut and offset (default 0) it carries an optional SNR in decibels
(default none); the linear gain applied to the track's energy at mix
time is derived from that SNR and the operands' energies, an absent SNR
meaning gain 1.0 (unmodified). -/
theorem claim_C6_mixtrack_fields (c : AnyCut) (eRef eOwn : ℝ) :
    (MixTrack.mk c).offset = 0 ∧ (MixTrack.mk c).snr = none
    ∧ appliedGain eRef eOwn none = 1 :=
  ⟨rfl, rfl, rfl⟩

/-! ## Serialization

Modelled from the spec: the serialization collaborator is external to the
core (§6), required only to be a structured, self-describing record
format through which a CutSet round-trips, in a textual form (yaml or
json) and a compressed form of each. It is modelled as a token stream
(the structured records), rendered to two distinct byte encodings for
the two textual formats, with a run-length coder as the compressor. -/

/-- A scalar record token of the structured serialization format. -/
inductive Tok where
  | tn (n : ℕ)
  | tq (q : ℚ)
  | ts (s : String)
deriving DecidableEq, Repr

def serOptQ : Option ℚ → List Tok
  | none => [Tok.tn 0]
  | some q => [Tok.tn 1, Tok.tq q]

def serSup (s : Supervision) : List Tok :=
  [Tok.ts s.sid, Tok.ts s.recording, Tok.tq s.start, Tok.tq s.duration]

def serCut (c : Cut) : List Tok :=
  [Tok.ts c.cid, Tok.ts c.featureRef, Tok.tq c.start, Tok.tq c.duration,
    Tok.tn c.channel, Tok.tn c.supervisions.length]
  ++ (c.supervisions.map serSup).flatten

mutual

/-- Serialize a member, tagged 0 (simple) or 1 (mixed) so that the
Cut-vs-MixedCut polymorphism is reconstructible on read. -/
def serAny : AnyCut → List Tok
  | .simple c => Tok.tn 0 :: serCut c
  | .mixed m => Tok.tn 1 :: serMixed m

def serMixed : MixedCut → List Tok
  | .mk i trs => Tok.ts i :: Tok.tn trs.length :: serTracks trs

def serTracks : List MixTrack → List Tok
  | [] => []
  | t :: rest => serTrack t ++ serTracks rest

def serTrack : MixTrack → List Tok
  | .mk c off snr => serAny c ++ (Tok.tq off :: serOptQ snr)

end

def serCutSet (cs : CutSet) : List Tok :=
  Tok.tn cs.length :: (cs.map serAny).flatten

def parseOptQ : List Tok → Option (Option ℚ × List Tok)
  | Tok.tn 0 :: r => some (none, r)
  | Tok.tn 1 :: Tok.tq q :: r => some (some q, r)
  | _ => none

def parseSup : List Tok → Option (Supervision × List Tok)
  | Tok.ts i :: Tok.ts rec :: Tok.tq st :: Tok.tq d :: r =>
    some (⟨i, rec, st, d⟩, r)
  | _ => none

def parseSups : ℕ → List Tok → Option (List Supervision × List Tok)
  | 0, r => some ([], r)
  | k + 1, r =>
    match parseSup r with
    | none => none
    | some (s, r1) =>
      match parseSups k r1 with
      | none => none
      | some (ss, r2) => some (s :: ss, r2)

def parseCut : List Tok → Option (Cut × List Tok)
  | Tok.ts i :: Tok.ts f :: Tok.tq st :: Tok.tq d :: Tok.tn ch
      :: Tok.tn k :: r =>
    match parseSups k r with
    | none => none
    | some (ss, r1) => some (⟨i, f, st, d, ch, ss⟩, r1)
  | _ => none

mutual

/-- Recursive-descent parser for members; the fuel bounds the nesting
depth of mixed cuts within tracks. -/
def parseAnyF : ℕ → List Tok → Option (AnyCut × List Tok)
  | 0, _ => none
  | _ + 1, Tok.tn 0 :: r =>
    match parseCut r with
    | none => none
    | some (c, r1) => some (.simple c, r1)
  | fuel + 1, Tok.tn 1 :: r =>
    match parseMixedF fuel r with
    | none => none
    | some (m, r1) => some (.mixed m, r1)
  | _ + 1, _ => none

def parseMixedF : ℕ → List Tok → Option (MixedCut × List Tok)
  | fuel, Tok.ts i :: Tok.tn k :: r =>
    match parseTracksF fuel k r with
    | none => none
    | some (trs, r1) => some (MixedCut.mk i trs, r1)
  | _, _ => none

def parseTracksF : ℕ → ℕ → List Tok → Option (List MixTrack × List Tok)
  | _, 0, r => some ([], r)
  | fuel, k + 1, r =>
    match parseTrackF fuel r with
    | none => none
    | some (t, r1) =>
      match parseTracksF fuel k r1 with
      | none => none
      | some (trs, r2) => some (t :: trs, r2)

def parseTrackF : ℕ → List Tok → Option (MixTrack × List Tok)
  | fuel, r =>
    match parseAnyF fuel r with
    | none => none
    | some (c, r1) =>
      match r1 with
      | Tok.tq off :: r2 =>
        match parseOptQ r2 with
        | none => none
        | some (snr, r3) => some (MixTrack.mk c off snr, r3)
      | _ => none

end

def parseMembersF (fuel : ℕ) : ℕ → List Tok → Option (List AnyCut × List Tok)
  | 0, r => some ([], r)
  | k + 1, r =>
    match parseAnyF fuel r with
    | none => none
    | some (c, r1) =>
      match parseMembersF fuel k r1 with
      | none => none
      | some (cs, r2) => some (c :: cs, r2)

/-- Deserialize a whole CutSet from a token stream, requiring the stream
to be fully consumed. -/
def parseCutSet (toks : List Tok) : Option CutSet :=
  match toks with
  | Tok.tn k :: r =>
    match parseMembersF (toks.length + 1) k r with
    | some (cs, []) => some cs
    | _ => none
  | _ => none

mutual

/-- Nesting depth of a member: the parser fuel it needs. -/
def depthAny : AnyCut → ℕ
  | .simple _ => 1
  | .mixed m => 1 + depthMixed m

def depthMixed : MixedCut → ℕ
  | .mk _ trs => depthTracks trs

def depthTracks : List MixTrack → ℕ
  | [] => 0
  | .mk c _ _ :: rest => max (depthAny c) (depthTracks rest)

end

theorem parseOptQ_ser (o : Option ℚ) (r : List Tok) :
    parseOptQ (serOptQ o ++ r) = some (o, r) := by
  cases o <;> rfl

theorem parseSup_ser (s : Supervision) (r : List Tok) :
    parseSup (serSup s ++ r) = some (s, r) := rfl

theorem parseSups_ser (ss : List Supervision) (r : List Tok) :
    parseSups ss.length ((ss.map serSup).flatten ++ r) = some (ss, r) := by
  induction ss generalizing r with
  | nil => rfl
  | cons s rest ih =>
    simp only [List.map_cons, List.flatten_cons, List.append_assoc,
      List.length_cons]
    rw [parseSups, parseSup_ser]
    simp only [ih]

theorem parseCut_ser (c : Cut) (r : List Tok) :
    parseCut (serCut c ++ r) = some (c, r) := by
  simp only [serCut, List.cons_append, List.nil_append, List.append_assoc]
  rw [parseCut]
  simp only [parseSups_ser]

theorem depthAny_pos (c : AnyCut) : 1 ≤ depthAny c := by
  cases c <;> simp [depthAny]

mutual

theorem parseAnyF_ser : ∀ (fuel : ℕ) (c : AnyCut) (r : List Tok),
    depthAny c ≤ fuel → parseAnyF fuel (serAny c ++ r) = some (c, r)
  | fuel, .simple cu, r, h => by
    cases fuel with
    | zero => simp [depthAny] at h
    | succ f =>
      show parseAnyF (f + 1) (Tok.tn 0 :: (serCut cu ++ r)) = _
      rw [parseAnyF, parseCut_ser]
  | fuel, .mixed m, r, h => by
    cases fuel with
    | zero =>
      simp only [depthAny] at h
      omega
    | succ f =>
      have hm : depthMixed m ≤ f := by
        simp only [depthAny] at h
        omega
      show parseAnyF (f + 1) (Tok.tn 1 :: (serMixed m ++ r)) = _
      rw [parseAnyF, parseMixedF_ser f m r hm]

theorem parseMixedF_ser : ∀ (fuel : ℕ) (m : MixedCut) (r : List Tok),
    depthMixed m ≤ fuel → parseMixedF fuel (serMixed m ++ r) = some (m, r)
  | fuel, .mk i trs, r, h => by
    have ht : depthTracks trs ≤ fuel := by simpa [depthMixed] using h
    show parseMixedF fuel
      (Tok.ts i :: Tok.tn trs.length :: (serTracks trs ++ r)) = _
    rw [parseMixedF, parseTracksF_ser fuel trs r ht]

theorem parseTracksF_ser : ∀ (fuel : ℕ) (trs : List MixTrack) (r : List Tok),
    depthTracks trs ≤ fuel →
      parseTracksF fuel trs.length (serTracks trs ++ r) = some (trs, r)
  | fuel, [], r, _ => by
    rw [serTracks, List.nil_append, List.length_nil, parseTracksF]
  | fuel, .mk c off snr :: rest, r, h => by
    have h1 : depthAny c ≤ fuel := by
      simp only [depthTracks] at h
      omega
    have h2 : depthTracks rest ≤ fuel := by
      simp only [depthTracks] at h
      omega
    rw [serTracks, List.append_assoc, List.length_cons, parseTracksF]
    simp only [parseTrackF_ser fuel c off snr (serTracks rest ++ r) h1]
    simp only [parseTracksF_ser fuel rest r h2]

theorem parseTrackF_ser : ∀ (fuel : ℕ) (c : AnyCut) (off : ℚ)
    (snr : Option ℚ) (r : List Tok),
    depthAny c ≤ fuel →
      parseTrackF fuel (serTrack (.mk c off snr) ++ r)
        = some (.mk c off snr, r)
  | fuel, c, off, snr, r, h => by
    rw [serTrack, List.append_assoc, List.cons_append, parseTrackF]
    simp only [parseAnyF_ser fuel c (Tok.tq off :: (serOptQ snr ++ r)) h,
      parseOptQ_ser]

end

theorem parseMembersF_ser (fuel : ℕ) (l : List AnyCut) (r : List Tok)
    (h : ∀ c ∈ l, depthAny c ≤ fuel) :
    parseMembersF fuel l.length ((l.map serAny).flatten ++ r)
      = some (l, r) := by
  induction l generalizing r with
  | nil => rfl
  | cons c rest ih =>
    simp only [List.map_cons, List.flatten_cons, List.append_assoc,
      List.length_cons]
    have hrest : ∀ x ∈ rest, depthAny x ≤ fuel :=
      fun x hx => h x (List.mem_cons_of_mem c hx)
    rw [parseMembersF]
    simp only [parseAnyF_ser fuel c _ (h c (List.mem_cons_self c rest))]
    simp only [ih _ hrest]

mutual

theorem depthAny_le_len : ∀ c : AnyCut, depthAny c ≤ (serAny c).length
  | .simple cu => by simp [depthAny, serAny]
  | .mixed m => by
    have := depthMixed_le_len m
    simp only [depthAny, serAny, List.length_cons]
    omega

theorem depthMixed_le_len : ∀ m : MixedCut, depthMixed m ≤ (serMixed m).length
  | .mk i trs => by
    have := depthTracks_le_len trs
    simp only [depthMixed, serMixed, List.length_cons]
    omega

theorem depthTracks_le_len :
    ∀ trs : List MixTrack, depthTracks trs ≤ (serTracks trs).length
  | [] => by simp [depthTracks, serTracks]
  | .mk c off snr :: rest => by
    have h1 := depthAny_le_len c
    have h2 := depthTracks_le_len rest
    simp only [depthTracks, serTracks, serTrack, List.length_append,
      List.length_cons]
    omega

end

theorem ser_member_le (cs : List AnyCut) (c : AnyCut) (hc : c ∈ cs) :
    (serAny c).length ≤ ((cs.map serAny).flatten).length := by
  induction cs with
  | nil => cases hc
  | cons x rest ih =>
    simp only [List.map_cons, List.flatten_cons, List.length_append]
    rcases List.mem_cons.mp hc with h | h
    · subst h
      omega
    · have := ih h
      omega

/-- Core round trip: parsing back the token serialization of a CutSet
recovers it exactly, including the Cut-vs-MixedCut polymorphism. -/
theorem parseCutSet_ser (cs : CutSet) :
    parseCutSet (serCutSet cs) = some cs := by
  have hdepth : ∀ c ∈ cs,
      depthAny c ≤ (serCutSet cs).length + 1 := by
    intro c hc
    have h1 := depthAny_le_len c
    have h2 := ser_member_le cs c hc
    simp only [serCutSet, List.length_cons]
    omega
  have hm := parseMembersF_ser ((serCutSet cs).length + 1) cs [] hdepth
  rw [List.append_nil] at hm
  show (match parseMembersF ((serCutSet cs).length + 1) cs.length
      ((cs.map serAny).flatten) with
    | some (l, []) => some l
    | _ => none) = some cs
  rw [hm]

/-! ### Byte renderings and compression -/

/-- Sign-interleaving code of an integer into a natural. -/
def zEnc (i : ℤ) : ℕ :=
  if 0 ≤ i then 2 * i.natAbs else 2 * i.natAbs + 1

def zDec (n : ℕ) : ℤ :=
  if n % 2 = 0 then ((n / 2 : ℕ) : ℤ) else -((n / 2 : ℕ) : ℤ)

theorem zDec_zEnc (i : ℤ) : zDec (zEnc i) = i := by
  rw [zEnc, zDec]
  by_cases h : 0 ≤ i
  · rw [if_pos h]
    split <;> omega
  · rw [if_neg h]
    split <;> omega

/-- Read `k` naturals off the front of a byte stream. -/
def readNats : ℕ → List ℕ → Option (List ℕ × List ℕ)
  | 0, l => some ([], l)
  | _ + 1, [] => none
  | k + 1, x :: l =>
    match readNats k l with
    | none => none
    | some (xs, r) => some (x :: xs, r)

theorem readNats_append (xs rest : List ℕ) :
    readNats xs.length (xs ++ rest) = some (xs, rest) := by
  induction xs with
  | nil => rfl
  | cons x l ih => rw [List.length_cons, List.cons_append, readNats, ih]

/-- Byte rendering of one token in the yaml scheme. -/
def yamlTok : Tok → List ℕ
  | .tn n => [0, n]
  | .tq q => [1, zEnc q.num, q.den]
  | .ts s => [2, s.length] ++ s.data.map Char.toNat

/-- Byte rendering of one token in the json scheme: distinct tags, and
the rational's denominator leads. -/
def jsonTok : Tok → List ℕ
  | .tn n => [3, n]
  | .tq q => [4, q.den, zEnc q.num]
  | .ts s => [5, s.length] ++ s.data.map Char.toNat

def yamlDecTok : List ℕ → Option (Tok × List ℕ)
  | 0 :: n :: r => some (.tn n, r)
  | 1 :: a :: b :: r => some (.tq (((zDec a : ℤ) : ℚ) / ((b : ℕ) : ℚ)), r)
  | 2 :: k :: r =>
    match readNats k r with
    | none => none
    | some (codes, r1) => some (.ts ⟨codes.map Char.ofNat⟩, r1)
  | _ => none

def jsonDecTok : List ℕ → Option (Tok × List ℕ)
  | 3 :: n :: r => some (.tn n, r)
  | 4 :: b :: a :: r => some (.tq (((zDec a : ℤ) : ℚ) / ((b : ℕ) : ℚ)), r)
  | 5 :: k :: r =>
    match readNats k r with
    | none => none
    | some (codes, r1) => some (.ts ⟨codes.map Char.ofNat⟩, r1)
  | _ => none

theorem string_code_roundtrip (s : String) (rest : List ℕ) :
    (match readNats s.length ((s.data.map Char.toNat) ++ rest) with
      | none => none
      | some (codes, r1) => some (Tok.ts ⟨codes.map Char.ofNat⟩, r1))
      = some (Tok.ts s, rest) := by
  have hl : s.length = (s.data.map Char.toNat).length := by
    rw [List.length_map]
    rfl
  rw [hl, readNats_append]
  have hmap : ((s.data.map Char.toNat).map Char.ofNat) = s.data := by
    rw [List.map_map]
    have : Char.ofNat ∘ Char.toNat = id := funext Char.ofNat_toNat
    rw [this, List.map_id]
  show some (Tok.ts ⟨(s.data.map Char.toNat).map Char.ofNat⟩, rest) = _
  rw [hmap]

theorem yamlDecTok_enc (t : Tok) (rest : List ℕ) :
    yamlDecTok (yamlTok t ++ rest) = some (t, rest) := by
  cases t with
  | tn n => rfl
  | tq q =>
    show yamlDecTok (1 :: zEnc q.num :: q.den :: rest) = _
    rw [yamlDecTok, zDec_zEnc, Rat.num_div_den]
  | ts s =>
    show yamlDecTok (2 :: s.length :: ((s.data.map Char.toNat) ++ rest)) = _
    rw [yamlDecTok]
    exact string_code_roundtrip s rest

theorem jsonDecTok_enc (t : Tok) (rest : List ℕ) :
    jsonDecTok (jsonTok t ++ rest) = some (t, rest) := by
  cases t with
  | tn n => rfl
  | tq q =>
    show jsonDecTok (4 :: q.den :: zEnc q.num :: rest) = _
    rw [jsonDecTok, zDec_zEnc, Rat.num_div_den]
  | ts s =>
    show jsonDecTok (5 :: s.length :: ((s.data.map Char.toNat) ++ rest)) = _
    rw [jsonDecTok]
    exact string_code_roundtrip s rest

/-- Decode a whole byte stream into tokens; the fuel bounds the number of
tokens (each token takes at least one byte, so the byte count is enough). -/
def decToks (decTok : List ℕ → Option (Tok × List ℕ)) :
    ℕ → List ℕ → Option (List Tok)
  | _, [] => some []
  | 0, _ :: _ => none
  | fuel + 1, l =>
    match decTok l with
    | none => none
    | some (t, r) =>
      match decToks decTok fuel r with
      | none => none
      | some toks => some (t :: toks)

def encToks (encTok : Tok → List ℕ) (toks : List Tok) : List ℕ :=
  (toks.map encTok).flatten

theorem encTok_ne_nil_yaml (t : Tok) : yamlTok t ≠ [] := by
  cases t <;> simp [yamlTok]

theorem encTok_ne_nil_json (t : Tok) : jsonTok t ≠ [] := by
  cases t <;> simp [jsonTok]

theorem decToks_encToks
    (encTok : Tok → List ℕ) (decTok : List ℕ → Option (Tok × List ℕ))
    (hne : ∀ t, encTok t ≠ [])
    (hdec : ∀ t rest, decTok (encTok t ++ rest) = some (t, rest))
    (toks : List Tok) (fuel : ℕ) (hfuel : toks.length ≤ fuel) :
    decToks decTok fuel (encToks encTok toks) = some toks := by
  induction toks generalizing fuel with
  | nil => cases fuel <;> rfl
  | cons t rest ih =>
    rw [List.length_cons] at hfuel
    cases fuel with
    | zero => omega
    | succ f =>
      rw [encToks, List.map_cons, List.flatten_cons]
      rcases he : encTok t with _ | ⟨b, bs⟩
      · exact absurd he (hne t)
      · rw [List.cons_append, decToks]
        have hd := hdec t ((rest.map encTok).flatten)
        rw [he, List.cons_append] at hd
        rw [hd]
        have ih2 := ih f (by omega)
        rw [encToks] at ih2
        simp only [ih2]
        exact fun h => nomatch h

theorem length_le_encToks (encTok : Tok → List ℕ) (hne : ∀ t, encTok t ≠ [])
    (toks : List Tok) : toks.length ≤ (encToks encTok toks).length := by
  induction toks with
  | nil => simp [encToks]
  | cons t rest ih =>
    rw [encToks, List.map_cons, List.flatten_cons, List.length_append,
      List.length_cons]
    have : 1 ≤ (encTok t).length := by
      rcases he : encTok t with _ | _
      · exact absurd he (hne t)
      · simp
    rw [encToks] at ih
    omega

theorem length_dropWhile_le (p : ℕ → Bool) (l : List ℕ) :
    (l.dropWhile p).length ≤ l.length :=
  (List.dropWhile_sublist p).length_le

/-- Run-length compression of a byte stream, as flattened
(count, value) pairs. -/
def rle : List ℕ → List ℕ
  | [] => []
  | x :: xs =>
    ((xs.takeWhile (· == x)).length + 1) :: x :: rle (xs.dropWhile (· == x))
termination_by l => l.length
decreasing_by
  have := length_dropWhile_le (· == x) xs
  simp only [List.length_cons]
  omega

def unrle : List ℕ → List ℕ
  | c :: v :: rest => List.replicate c v ++ unrle rest
  | _ => []

theorem takeWhile_beq_replicate (x : ℕ) (xs : List ℕ) :
    xs.takeWhile (· == x) = List.replicate (xs.takeWhile (· == x)).length x := by
  induction xs with
  | nil => rfl
  | cons y ys ih =>
    by_cases h : y = x
    · subst h
      rw [List.takeWhile_cons_of_pos (by simp)]
      rw [List.length_cons, List.replicate_succ]
      exact congrArg _ ih
    · rw [List.takeWhile_cons_of_neg (by simpa using h)]
      rfl

theorem unrle_rle_aux (n : ℕ) :
    ∀ l : List ℕ, l.length ≤ n → unrle (rle l) = l := by
  induction n with
  | zero =>
    intro l hl
    have h0 : l = [] := List.length_eq_zero.mp (by omega)
    subst h0
    simp only [rle]
    rfl
  | succ k ih =>
    intro l hl
    cases l with
    | nil =>
      simp only [rle]
      rfl
    | cons x xs =>
      simp only [rle]
      show List.replicate ((xs.takeWhile (· == x)).length + 1) x
        ++ unrle (rle (xs.dropWhile (· == x))) = x :: xs
      rw [ih _ (by
          have := length_dropWhile_le (· == x) xs
          rw [List.length_cons] at hl
          omega)]
      rw [List.replicate_succ, ← takeWhile_beq_replicate, List.cons_append,
        List.takeWhile_append_dropWhile]

theorem unrle_rle (l : List ℕ) : unrle (rle l) = l :=
  unrle_rle_aux l.length l le_rfl

/-! ### The four serialization formats -/

/-- Textual yaml-scheme serialization of a CutSet to a byte stream. -/
def toYaml (cs : CutSet) : List ℕ :=
  encToks yamlTok (serCutSet cs)

def fromYaml (bytes : List ℕ) : Option CutSet :=
  match decToks yamlDecTok bytes.length bytes with
  | none => none
  | some toks => parseCutSet toks

/-- Textual json-scheme serialization of a CutSet to a byte stream. -/
def toJson (cs : CutSet) : List ℕ :=
  encToks jsonTok (serCutSet cs)

def fromJson (bytes : List ℕ) : Option CutSet :=
  match decToks jsonDecTok bytes.length bytes with
  | none => none
  | some toks => parseCutSet toks

/-- Compressed variants: run-length coded byte streams. -/
def toYamlGz (cs : CutSet) : List ℕ := rle (toYaml cs)

def fromYamlGz (bytes : List ℕ) : Option CutSet := fromYaml (unrle bytes)

def toJsonGz (cs : CutSet) : List ℕ := rle (toJson cs)

def fromJsonGz (bytes : List ℕ) : Option CutSet := fromJson (unrle bytes)

theorem fromYaml_toYaml (cs : CutSet) : fromYaml (toYaml cs) = some cs := by
  rw [fromYaml, toYaml,
    decToks_encToks yamlTok yamlDecTok encTok_ne_nil_yaml yamlDecTok_enc
      (serCutSet cs) _
      (length_le_encToks yamlTok encTok_ne_nil_yaml (serCutSet cs))]
  simp only [parseCutSet_ser]

theorem fromJson_toJson (cs : CutSet) : fromJson (toJson cs) = some cs := by
  rw [fromJson, toJson,
    decToks_encToks jsonTok jsonDecTok encTok_ne_nil_json jsonDecTok_enc
      (serCutSet cs) _
      (length_le_encToks jsonTok encTok_ne_nil_json (serCutSet cs))]
  simp only [parseCutSet_ser]

/-- C5: deserializing the serialization of any CutSet — with or without
mixed members — yields it back exactly, for both textual encodings (yaml
and json) and for their compressed variants. -/
theorem claim_C5_serialization_roundtrip (cs : CutSet) :
    fromYaml (toYaml cs) = some cs
    ∧ fromJson (toJson cs) = some cs
    ∧ fromYamlGz (toYamlGz cs) = some cs
    ∧ fromJsonGz (toJsonGz cs) = some cs :=
  ⟨fromYaml_toYaml cs, fromJson_toJson cs,
    by rw [fromYamlGz, toYamlGz, unrle_rle, fromYaml_toYaml],
    by rw [fromJsonGz, toJsonGz, unrle_rle, fromJson_toJson]⟩

end Lhotse
